import Mathlib

/-!
Shallow embedding of the QuadTree image-processing core of
`src/backend/main.py` (class `QuadTreeNode`, class `QuadTree`, and the
`/overlay` endpoint's validation), together with proofs about the claims
of the specification.

Modelling conventions, derived from how the Python source actually uses
its data:

* The HTTP endpoints convert every uploaded image to RGB
  (`image.convert('RGB')`) before the core runs, so rasters are modelled
  with exactly three channels.  A raster is a total function
  `px : ℤ → ℤ → Fin 3 → ℤ` (`px r c ch` is `image[r, c, ch]`); the
  builder only ever reads in-bounds pixels of nonnegative regions.
* `QuadTreeNode` is a Python dataclass where `pixel_value` and `children`
  are `Optional`, but every operation of the source tests these fields
  only for truthiness (`if self.children:`, `pixel_value or [0,0,0]`,
  `pixel_value[:] if pixel_value else []`), so Python's `None` and the
  empty list are indistinguishable to the whole program; the model uses a
  plain list with `[]` standing for `None`/`[]`.  Every constructor call
  in the source produces either a leaf (`is_leaf=True`, a pixel value,
  no children) or an internal node (`is_leaf=False`, exactly four
  children, `pixel_value=None`), which is the tagged shape used here.
* Python `//` is floor division; Lean's `Int` division `/` is Euclidean
  division, which agrees with floor division for the positive divisor 2
  used throughout the source.
* `numpy.std` takes a real square root; its comparison
  `sqrt v < threshold` is modelled exactly as
  `0 < threshold ∧ v < threshold ^ 2`, and Python `int(...)` on a float
  is truncation toward zero, modelled by `truncRat` over `ℚ`.
* `_overlay_recursive` indexes `(node.children or [])[i]`, which raises
  `IndexError` when a minimal leaf (width or height ≤ 1) failed to expand;
  the model returns `Option` with `none` for that exception.
-/

/-- Model of the `QuadTreeNode` dataclass (src/backend/main.py lines 26-35).
`leafN x y width height pixel_value` is a node with `is_leaf=True` and
`children=None`; `internalN x y width height nw ne sw se` is a node with
`is_leaf=False`, `pixel_value=None` and `children=[nw, ne, sw, se]`. -/
inductive QuadTreeNode where
  | leafN (x y width height : ℤ) (pixelValue : List ℤ) : QuadTreeNode
  | internalN (x y width height : ℤ) (nw ne sw se : QuadTreeNode) : QuadTreeNode
deriving DecidableEq, Repr

/-- Field accessor `node.x`. -/
def nodeX : QuadTreeNode → ℤ
  | .leafN x _ _ _ _ => x
  | .internalN x _ _ _ _ _ _ _ => x

/-- Field accessor `node.y`. -/
def nodeY : QuadTreeNode → ℤ
  | .leafN _ y _ _ _ => y
  | .internalN _ y _ _ _ _ _ _ => y

/-- Field accessor `node.width`. -/
def nodeW : QuadTreeNode → ℤ
  | .leafN _ _ w _ _ => w
  | .internalN _ _ w _ _ _ _ _ => w

/-- Field accessor `node.height`. -/
def nodeH : QuadTreeNode → ℤ
  | .leafN _ _ _ h _ => h
  | .internalN _ _ _ h _ _ _ _ => h

/-- Field accessor `node.is_leaf`. -/
def isLeafB : QuadTreeNode → Bool
  | .leafN _ _ _ _ _ => true
  | .internalN _ _ _ _ _ _ _ _ => false

/-- Field accessor `node.pixel_value`, with `[]` standing for Python `None`
on internal nodes (the source only ever tests this field for truthiness). -/
def pixelValueOf : QuadTreeNode → List ℤ
  | .leafN _ _ _ _ pv => pv
  | .internalN _ _ _ _ _ _ _ _ => []

/-- The rectangular region `(x, y, width, height)` carried by a node. -/
def regionOf (n : QuadTreeNode) : ℤ × ℤ × ℤ × ℤ :=
  (nodeX n, nodeY n, nodeW n, nodeH n)

/-- Membership of the pixel at row `r`, column `c` in a node's region:
`r ∈ [y, y+height)` and `c ∈ [x, x+width)`. -/
def inRegionN (n : QuadTreeNode) (r c : ℤ) : Prop :=
  nodeY n ≤ r ∧ r < nodeY n + nodeH n ∧ nodeX n ≤ c ∧ c < nodeX n + nodeW n

instance (n : QuadTreeNode) (r c : ℤ) : Decidable (inRegionN n r c) := by
  unfold inRegionN; infer_instance

/-- Model of `QuadTree._count_nodes` (lines 116-120): a leaf counts 1, an
internal node counts 1 plus the counts of its four children. -/
def countNodes : QuadTreeNode → ℕ
  | .leafN _ _ _ _ _ => 1
  | .internalN _ _ _ _ nw ne sw se =>
      1 + (countNodes nw + countNodes ne + countNodes sw + countNodes se)

/-- A decoded raster as handed to the core: height `H`, width `W`, and a
pixel function (`px r c ch` = `image_array[r, c, ch]`, RGB channels). -/
structure Image where
  H : ℤ
  W : ℤ
  px : ℤ → ℤ → Fin 3 → ℤ

/-- Python `int(...)` applied to a (rational-valued) float: truncation
toward zero. -/
def truncRat (q : ℚ) : ℤ :=
  if q < 0 then -(Int.floor (-q)) else Int.floor q

/-- Arithmetic mean of a list of integers, as exact rational. -/
def listMean (l : List ℤ) : ℚ :=
  ((l.sum : ℤ) : ℚ) / (l.length : ℚ)

/-- The integers `a, a+1, ..., a+len-1` (one axis of a region slice). -/
def axisRange (a len : ℤ) : List ℤ :=
  (List.range len.toNat).map (fun i => a + (i : ℤ))

/-- The values of channel `ch` over the region slice
`image[y:y+height, x:x+width]`. -/
def channelValues (img : Image) (x y width height : ℤ) (ch : Fin 3) : List ℤ :=
  (axisRange y height).flatMap (fun r => (axisRange x width).map (fun c => img.px r c ch))

/-- Population variance (`numpy.std` squared) of channel `ch` over a
region slice. -/
def channelVariance (img : Image) (x y width height : ℤ) (ch : Fin 3) : ℚ :=
  let l := channelValues img x y width height ch
  ((l.map (fun v => ((v : ℚ) - listMean l) ^ 2)).sum) / (l.length : ℚ)

/-- Model of `QuadTree._is_homogeneous` (lines 85-98): regions of minimal
size are homogeneous; otherwise every channel's population standard
deviation must be strictly below `threshold`.  The real-valued comparison
`sqrt variance < threshold` holds exactly when
`0 < threshold ∧ variance < threshold ^ 2`. -/
def isHomogeneous (threshold : ℤ) (img : Image) (x y width height : ℤ) : Bool :=
  if width ≤ 1 ∨ height ≤ 1 then true
  else
    decide (0 < threshold ∧
      ∀ ch : Fin 3, channelVariance img x y width height ch < ((threshold : ℚ)) ^ 2)

/-- Model of `QuadTree._get_average_color` (lines 100-108, RGB branch):
per-channel mean truncated toward zero by Python `int(...)`. -/
def averageColor (img : Image) (x y width height : ℤ) : List ℤ :=
  [truncRat (listMean (channelValues img x y width height 0)),
   truncRat (listMean (channelValues img x y width height 1)),
   truncRat (listMean (channelValues img x y width height 2))]

/-- Model of `QuadTree._build_tree` (lines 60-83): minimal regions become
forced leaves coloured by the single pixel `image[y, x]`; homogeneous
regions become leaves with the average colour; otherwise the region is
split at `mid_x = width // 2`, `mid_y = height // 2` into NW, NE, SW, SE
children built recursively. -/
def buildTree (threshold : ℤ) (img : Image) (x y width height : ℤ) : QuadTreeNode :=
  if width ≤ 1 ∨ height ≤ 1 then
    .leafN x y width height [img.px y x 0, img.px y x 1, img.px y x 2]
  else if isHomogeneous threshold img x y width height then
    .leafN x y width height (averageColor img x y width height)
  else
    .internalN x y width height
      (buildTree threshold img x y (width / 2) (height / 2))
      (buildTree threshold img (x + width / 2) y (width - width / 2) (height / 2))
      (buildTree threshold img x (y + height / 2) (width / 2) (height - height / 2))
      (buildTree threshold img (x + width / 2) (y + height / 2) (width - width / 2) (height - height / 2))
termination_by (width + height).toNat
decreasing_by all_goals omega

/-- Model of the `QuadTree` object: `threshold`, `original_shape`
(stored as the `(H, W)` prefix of the numpy shape; the channel count is
fixed at 3), the root node, and the stored `compression_ratio`. -/
structure QuadTree where
  threshold : ℤ
  originalShape : ℤ × ℤ
  root : QuadTreeNode
  compressionRatio : ℚ
deriving DecidableEq

/-- Model of `QuadTree.__init__` (lines 54-58 together with
`_calculate_compression_ratio`, lines 110-114): build the root over the
whole raster and store `(total_pixels - node_count) / total_pixels * 100`. -/
def QuadTree.build (img : Image) (threshold : ℤ) : QuadTree :=
  let root := buildTree threshold img 0 0 img.W img.H
  { threshold := threshold
    originalShape := (img.H, img.W)
    root := root
    compressionRatio :=
      (((img.H * img.W : ℤ) : ℚ) - (countNodes root : ℚ)) / ((img.H * img.W : ℤ) : ℚ) * 100 }

/-- Model of `QuadTree._flip_horizontal_recursive` (lines 131-158): every
node's `x` becomes `source_width - x - width`; an internal node's children
are reassigned `[old_NE, old_NW, old_SE, old_SW]`, each recursively
flipped.  `pixel_value[:] if pixel_value else []` copies the list (and
maps the never-produced `None` to `[]`, which the list model already
identifies). -/
def flipHorizontalRec (W : ℤ) : QuadTreeNode → QuadTreeNode
  | .leafN x y w h pv => .leafN (W - x - w) y w h pv
  | .internalN x y w h nw ne sw se =>
      .internalN (W - x - w) y w h
        (flipHorizontalRec W ne) (flipHorizontalRec W nw)
        (flipHorizontalRec W se) (flipHorizontalRec W sw)

/-- Model of `QuadTree._flip_vertical_recursive` (lines 169-197): every
node's `y` becomes `source_height - y - height`; children are reassigned
`[old_SW, old_SE, old_NW, old_NE]`, each recursively flipped. -/
def flipVerticalRec (H : ℤ) : QuadTreeNode → QuadTreeNode
  | .leafN x y w h pv => .leafN x (H - y - h) w h pv
  | .internalN x y w h nw ne sw se =>
      .internalN x (H - y - h) w h
        (flipVerticalRec H sw) (flipVerticalRec H se)
        (flipVerticalRec H nw) (flipVerticalRec H ne)

/-- Model of `QuadTree.flip_horizontal` (lines 122-129): a new tree with
the same `threshold`, `original_shape` and `compression_ratio`, whose root
is the flipped root (`original_shape[1]` is the width). -/
def QuadTree.flipHorizontal (t : QuadTree) : QuadTree :=
  { threshold := t.threshold
    originalShape := t.originalShape
    root := flipHorizontalRec t.originalShape.2 t.root
    compressionRatio := t.compressionRatio }

/-- Model of `QuadTree.flip_vertical` (lines 160-167); `original_shape[0]`
is the height. -/
def QuadTree.flipVertical (t : QuadTree) : QuadTree :=
  { threshold := t.threshold
    originalShape := t.originalShape
    root := flipVerticalRec t.originalShape.1 t.root
    compressionRatio := t.compressionRatio }

/-- Python `pixel_value or [0, 0, 0]` (used by `_overlay_recursive` and
`_render_node`): an empty (or `None`) list is replaced by `[0, 0, 0]`. -/
def pvOr (pv : List ℤ) : List ℤ :=
  if pv.isEmpty then [0, 0, 0] else pv

/-- Model of `QuadTree._apply_overlay_operation` (lines 235-251): numpy
elementwise arithmetic over the two colour lists, followed by
`[int(c) for c in result]` (truncation toward zero).  An unrecognized
`operation` string silently falls back to the blend formula. -/
def applyOverlayOperation (color1 color2 : List ℤ) (operation : String) (alpha : ℚ) : List ℤ :=
  let result : List ℚ :=
    if operation = "blend" then
      List.zipWith (fun (a b : ℤ) => (a : ℚ) * (1 - alpha) + (b : ℚ) * alpha) color1 color2
    else if operation = "add" then
      List.zipWith (fun (a b : ℤ) => ((min (a + b) 255 : ℤ) : ℚ)) color1 color2
    else if operation = "multiply" then
      List.zipWith (fun (a b : ℤ) => ((a : ℚ) * (b : ℚ)) / 255) color1 color2
    else if operation = "screen" then
      List.zipWith (fun (a b : ℤ) => 255 - ((255 - (a : ℚ)) * (255 - (b : ℚ))) / 255) color1 color2
    else
      List.zipWith (fun (a b : ℤ) => (a : ℚ) * (1 - alpha) + (b : ℚ) * alpha) color1 color2
  result.map truncRat

/-- Model of `QuadTree._expand_leaf_node` (lines 253-268): a minimal leaf
is returned unchanged; otherwise the leaf becomes an internal node whose
four children tile its region at `mid_x = width // 2`,
`mid_y = height // 2` and all inherit (a copy of) the leaf's colour.  The
source only ever calls this on leaves; on an internal node the model is
the identity. -/
def expandLeafNode : QuadTreeNode → QuadTreeNode
  | .leafN x y w h pv =>
      if w ≤ 1 ∨ h ≤ 1 then .leafN x y w h pv
      else
        .internalN x y w h
          (.leafN x y (w / 2) (h / 2) pv)
          (.leafN (x + w / 2) y (w - w / 2) (h / 2) pv)
          (.leafN x (y + h / 2) (w / 2) (h - h / 2) pv)
          (.leafN (x + w / 2) (y + h / 2) (w - w / 2) (h - h / 2) pv)
  | n => n

/-- Model of `QuadTree._overlay_recursive` (lines 208-233).  Two leaves
combine their colours over `node1`'s region.  When exactly one side is a
leaf the source reassigns it to `_expand_leaf_node(...)` and then indexes
`(node.children or [])[i]`; for a non-minimal leaf the expansion produces
exactly the four floor-tiling children written out inline below (see
`expandLeafNode_not_minimal`), and for a minimal leaf the expansion
returns the leaf unchanged, so the indexing raises `IndexError`, modelled
as `none`. -/
def overlayRec (operation : String) (alpha : ℚ) :
    QuadTreeNode → QuadTreeNode → Option QuadTreeNode
  | .leafN x y w h pv1, .leafN _ _ _ _ pv2 =>
      some (.leafN x y w h (applyOverlayOperation (pvOr pv1) (pvOr pv2) operation alpha))
  | .leafN x y w h pv, .internalN _ _ _ _ a2 b2 c2 d2 =>
      if w ≤ 1 ∨ h ≤ 1 then none
      else do
        let ra ← overlayRec operation alpha (.leafN x y (w / 2) (h / 2) pv) a2
        let rb ← overlayRec operation alpha (.leafN (x + w / 2) y (w - w / 2) (h / 2) pv) b2
        let rc ← overlayRec operation alpha (.leafN x (y + h / 2) (w / 2) (h - h / 2) pv) c2
        let rd ← overlayRec operation alpha (.leafN (x + w / 2) (y + h / 2) (w - w / 2) (h - h / 2) pv) d2
        some (.internalN x y w h ra rb rc rd)
  | .internalN x y w h a1 b1 c1 d1, .leafN x2 y2 w2 h2 pv =>
      if w2 ≤ 1 ∨ h2 ≤ 1 then none
      else do
        let ra ← overlayRec operation alpha a1 (.leafN x2 y2 (w2 / 2) (h2 / 2) pv)
        let rb ← overlayRec operation alpha b1 (.leafN (x2 + w2 / 2) y2 (w2 - w2 / 2) (h2 / 2) pv)
        let rc ← overlayRec operation alpha c1 (.leafN x2 (y2 + h2 / 2) (w2 / 2) (h2 - h2 / 2) pv)
        let rd ← overlayRec operation alpha d1 (.leafN (x2 + w2 / 2) (y2 + h2 / 2) (w2 - w2 / 2) (h2 - h2 / 2) pv)
        some (.internalN x y w h ra rb rc rd)
  | .internalN x y w h a1 b1 c1 d1, .internalN _ _ _ _ a2 b2 c2 d2 => do
      let ra ← overlayRec operation alpha a1 a2
      let rb ← overlayRec operation alpha b1 b2
      let rc ← overlayRec operation alpha c1 c2
      let rd ← overlayRec operation alpha d1 d2
      some (.internalN x y w h ra rb rc rd)
termination_by n1 n2 => countNodes n1 + countNodes n2
decreasing_by all_goals (simp [countNodes]; omega)

/-- Model of `QuadTree.overlay` (lines 199-206): a new tree with
`treeA`'s `threshold` and `original_shape`, the merged root, and the
arithmetic mean of the two stored compression ratios. -/
def QuadTree.overlay (t other : QuadTree) (operation : String) (alpha : ℚ) : Option QuadTree :=
  (overlayRec operation alpha t.root other.root).map (fun r =>
    { threshold := t.threshold
      originalShape := t.originalShape
      root := r
      compressionRatio := (t.compressionRatio + other.compressionRatio) / 2 })

/-- A raster being written by the renderer, as a total pixel function. -/
abbrev Raster := ℤ → ℤ → Fin 3 → ℤ

/-- The zero-filled raster allocated by `QuadTree.to_image` (lines
270-278). -/
def zeroRaster : Raster := fun _ _ _ => 0

/-- Model of `QuadTree._render_node` (lines 280-290, RGB branch): a leaf
assigns `pixel_value or [0,0,0]` to every pixel of the slice
`image[y:y+height, x:x+width]` (the colour list broadcast across the
channel axis); an internal node writes nothing itself and renders its
children in order NW, NE, SW, SE, later writes overwriting earlier
ones. -/
def renderNode : QuadTreeNode → Raster → Raster
  | .leafN x y w h pv, img => fun r c ch =>
      if y ≤ r ∧ r < y + h ∧ x ≤ c ∧ c < x + w then (pvOr pv).getD ch.val 0
      else img r c ch
  | .internalN _ _ _ _ nw ne sw se, img =>
      renderNode se (renderNode sw (renderNode ne (renderNode nw img)))

/-- Model of `QuadTree.to_image` (lines 270-278): render the root into a
zero-filled raster. -/
def QuadTree.toImage (t : QuadTree) : Raster :=
  renderNode t.root zeroRaster

/-- JSON values, for the `to_dict` tree snapshot. -/
inductive Json where
  | null : Json
  | jint (n : ℤ) : Json
  | jbool (b : Bool) : Json
  | jarr (l : List Json) : Json
  | jobj (l : List (String × Json)) : Json

/-- Model of `QuadTreeNode.to_dict` (lines 37-49): the dictionary always
carries `x`, `y`, `width`, `height`, `is_leaf` and `pixel_value` (the
latter `None`, i.e. JSON null, on internal nodes); the `children` key is
added only when `self.children` is truthy, i.e. exactly on internal
nodes. -/
def toDict : QuadTreeNode → Json
  | .leafN x y w h pv =>
      .jobj [("x", .jint x), ("y", .jint y), ("width", .jint w), ("height", .jint h),
             ("is_leaf", .jbool true), ("pixel_value", .jarr (pv.map Json.jint))]
  | .internalN x y w h nw ne sw se =>
      .jobj [("x", .jint x), ("y", .jint y), ("width", .jint w), ("height", .jint h),
             ("is_leaf", .jbool false), ("pixel_value", .null),
             ("children", .jarr [toDict nw, toDict ne, toDict sw, toDict se])]

/-- Whether a JSON object carries key `k`. -/
def hasKey (k : String) : Json → Bool
  | .jobj l => l.any (fun p => p.1 == k)
  | _ => false

/-- The `valid_operations` list of the `/overlay` endpoint (line 456). -/
def validOperations : List String := ["blend", "add", "multiply", "screen"]

/-- Model of the `/overlay` endpoint's validation and dispatch (lines
440-469): after reading both uploads it rejects an operation tag outside
`valid_operations` with a 400 error, then rejects `alpha` outside
`[0, 1]`, and only then builds both trees (over the externally resized,
equal-shape rasters, here received already decoded) and overlays them. -/
def overlayEndpoint (img1 img2 : Image) (operation : String) (alpha : ℚ)
    (threshold : ℤ) : Except String (Option QuadTree) :=
  if operation ∈ validOperations then
    if 0 ≤ alpha ∧ alpha ≤ 1 then
      .ok ((QuadTree.build img1 threshold).overlay (QuadTree.build img2 threshold)
            operation alpha)
    else .error "Alpha must be between 0 and 1"
  else .error "Operation must be one of: blend, add, multiply, screen"

/-- The list of leaves of a tree, in depth-first NW, NE, SW, SE order. -/
def leaves : QuadTreeNode → List QuadTreeNode
  | .leafN x y w h pv => [.leafN x y w h pv]
  | .internalN _ _ _ _ nw ne sw se => leaves nw ++ leaves ne ++ leaves sw ++ leaves se

/-- The floor-split tiling invariant claimed by the spec for every
internal node: the four children's regions are exactly
`NW=(x, y, mid_x, mid_y)`, `NE=(x+mid_x, y, width-mid_x, mid_y)`,
`SW=(x, y+mid_y, mid_x, height-mid_y)`,
`SE=(x+mid_x, y+mid_y, width-mid_x, height-mid_y)` with
`mid_x = width // 2`, `mid_y = height // 2`, recursively. -/
def FloorTiled : QuadTreeNode → Prop
  | .leafN _ _ _ _ _ => True
  | .internalN x y w h nw ne sw se =>
      FloorTiled nw ∧ FloorTiled ne ∧ FloorTiled sw ∧ FloorTiled se ∧
      regionOf nw = (x, y, w / 2, h / 2) ∧
      regionOf ne = (x + w / 2, y, w - w / 2, h / 2) ∧
      regionOf sw = (x, y + h / 2, w / 2, h - h / 2) ∧
      regionOf se = (x + w / 2, y + h / 2, w - w / 2, h - h / 2)

instance : ∀ n : QuadTreeNode, Decidable (FloorTiled n)
  | .leafN _ _ _ _ _ => by unfold FloorTiled; infer_instance
  | .internalN x y w h nw ne sw se =>
      have := instDecidableFloorTiled nw
      have := instDecidableFloorTiled ne
      have := instDecidableFloorTiled sw
      have := instDecidableFloorTiled se
      by unfold FloorTiled; infer_instance

/-- Exact tiling of every internal node by its children, without
commitment to where the split sits: the four children's regions lie
inside the parent's region, are pairwise disjoint, and together cover the
parent's region; recursively so. -/
def ExactTiled : QuadTreeNode → Prop
  | .leafN _ _ _ _ _ => True
  | .internalN x y w h nw ne sw se =>
      ExactTiled nw ∧ ExactTiled ne ∧ ExactTiled sw ∧ ExactTiled se ∧
      (∀ r c, inRegionN nw r c ∨ inRegionN ne r c ∨ inRegionN sw r c ∨ inRegionN se r c →
        y ≤ r ∧ r < y + h ∧ x ≤ c ∧ c < x + w) ∧
      (∀ r c, y ≤ r ∧ r < y + h ∧ x ≤ c ∧ c < x + w →
        inRegionN nw r c ∨ inRegionN ne r c ∨ inRegionN sw r c ∨ inRegionN se r c) ∧
      (∀ r c,
        ¬(inRegionN nw r c ∧ inRegionN ne r c) ∧ ¬(inRegionN nw r c ∧ inRegionN sw r c) ∧
        ¬(inRegionN nw r c ∧ inRegionN se r c) ∧ ¬(inRegionN ne r c ∧ inRegionN sw r c) ∧
        ¬(inRegionN ne r c ∧ inRegionN se r c) ∧ ¬(inRegionN sw r c ∧ inRegionN se r c))

/-- The structural shape that `_build_tree` actually guarantees: every
internal node has `width > 1` and `height > 1` and its children's regions
are exactly the floor-split tiling, recursively. -/
def BuiltLike : QuadTreeNode → Prop
  | .leafN _ _ _ _ _ => True
  | .internalN x y w h nw ne sw se =>
      1 < w ∧ 1 < h ∧
      BuiltLike nw ∧ BuiltLike ne ∧ BuiltLike sw ∧ BuiltLike se ∧
      regionOf nw = (x, y, w / 2, h / 2) ∧
      regionOf ne = (x + w / 2, y, w - w / 2, h / 2) ∧
      regionOf sw = (x, y + h / 2, w / 2, h - h / 2) ∧
      regionOf se = (x + w / 2, y + h / 2, w - w / 2, h - h / 2)

/-- The trees the core can hand out: the result of a build, or of
flipping or overlaying trees it already produced. -/
inductive Produced : QuadTree → Prop where
  | build : ∀ (img : Image) (threshold : ℤ), Produced (QuadTree.build img threshold)
  | flipH : ∀ t, Produced t → Produced t.flipHorizontal
  | flipV : ∀ t, Produced t → Produced t.flipVertical
  | overlay : ∀ A B operation alpha T, Produced A → Produced B →
      A.overlay B operation alpha = some T → Produced T

/-- A 1×1 raster whose only pixel has value 10 in every channel. -/
def imgOneA : Image := { H := 1, W := 1, px := fun _ _ _ => 10 }

/-- A 1×1 raster whose only pixel has value 20 in every channel. -/
def imgOneB : Image := { H := 1, W := 1, px := fun _ _ _ => 20 }

/-- A 2×2 raster with four distinct pixels: channel `ch` of the pixel at
row `r`, column `c` is `(2*r + c) * 10 + ch`. -/
def imgTwo : Image :=
  { H := 2, W := 2, px := fun r c ch => (2 * r + c) * 10 + (ch.val : ℤ) }

/-- A 2×2 raster with constant value 5. -/
def imgTwoConst : Image := { H := 2, W := 2, px := fun _ _ _ => 5 }

/-- A 3-wide, 2-tall raster with constant value 0 (with threshold 0 the
builder still subdivides, since no standard deviation is below 0). -/
def imgThreeByTwo : Image := { H := 2, W := 3, px := fun _ _ _ => 0 }

/-- A 3-wide, 1-tall strip whose pixel at column `c` has channel value
`10 * c + ch`. -/
def imgStrip : Image :=
  { H := 1, W := 3, px := fun _ c ch => 10 * c + (ch.val : ℤ) }

theorem regionOf_leafN (x y w h : ℤ) (pv : List ℤ) :
    regionOf (.leafN x y w h pv) = (x, y, w, h) := rfl

theorem regionOf_internalN (x y w h : ℤ) (nw ne sw se : QuadTreeNode) :
    regionOf (.internalN x y w h nw ne sw se) = (x, y, w, h) := rfl

/-- The node built over a region carries exactly that region. -/
theorem buildTree_region (threshold : ℤ) (img : Image) (x y w h : ℤ) :
    regionOf (buildTree threshold img x y w h) = (x, y, w, h) := by
  rw [buildTree]
  split
  · rfl
  · split <;> rfl

/-- Everything `_build_tree` produces is `BuiltLike`: internal nodes only
arise for `width > 1`, `height > 1`, and their children tile at the floor
split. -/
theorem buildTree_builtLike (threshold : ℤ) (img : Image) :
    ∀ x y w h : ℤ, BuiltLike (buildTree threshold img x y w h) := by
  intro x y w h
  induction x, y, w, h using buildTree.induct threshold img with
  | case1 x y w h hc =>
      rw [buildTree, if_pos hc]; simp [BuiltLike]
  | case2 x y w h hc hh =>
      rw [buildTree, if_neg hc, if_pos hh]; simp [BuiltLike]
  | case3 x y w h hc hh ih1 ih2 ih3 ih4 =>
      rw [buildTree, if_neg hc, if_neg hh]
      rw [BuiltLike]
      exact ⟨by omega, by omega, ih1, ih2, ih3, ih4,
        buildTree_region .., buildTree_region .., buildTree_region .., buildTree_region ..⟩

/-- Components of a region equation. -/
theorem regionOf_eq_iff (n : QuadTreeNode) (a b c d : ℤ) :
    regionOf n = (a, b, c, d) ↔ nodeX n = a ∧ nodeY n = b ∧ nodeW n = c ∧ nodeH n = d := by
  simp [regionOf, Prod.ext_iff]

/-- One level of the floor split is an exact tiling: the four children's
regions lie inside the parent, cover it, and are pairwise disjoint. -/
theorem floor_split_exact (x y w h : ℤ) (nw ne sw se : QuadTreeNode)
    (hnw : regionOf nw = (x, y, w / 2, h / 2))
    (hne : regionOf ne = (x + w / 2, y, w - w / 2, h / 2))
    (hsw : regionOf sw = (x, y + h / 2, w / 2, h - h / 2))
    (hse : regionOf se = (x + w / 2, y + h / 2, w - w / 2, h - h / 2)) :
    (∀ r c, inRegionN nw r c ∨ inRegionN ne r c ∨ inRegionN sw r c ∨ inRegionN se r c →
      y ≤ r ∧ r < y + h ∧ x ≤ c ∧ c < x + w) ∧
    (∀ r c, y ≤ r ∧ r < y + h ∧ x ≤ c ∧ c < x + w →
      inRegionN nw r c ∨ inRegionN ne r c ∨ inRegionN sw r c ∨ inRegionN se r c) ∧
    (∀ r c,
      ¬(inRegionN nw r c ∧ inRegionN ne r c) ∧ ¬(inRegionN nw r c ∧ inRegionN sw r c) ∧
      ¬(inRegionN nw r c ∧ inRegionN se r c) ∧ ¬(inRegionN ne r c ∧ inRegionN sw r c) ∧
      ¬(inRegionN ne r c ∧ inRegionN se r c) ∧ ¬(inRegionN sw r c ∧ inRegionN se r c)) := by
  rw [regionOf_eq_iff] at hnw hne hsw hse
  obtain ⟨a1, a2, a3, a4⟩ := hnw
  obtain ⟨b1, b2, b3, b4⟩ := hne
  obtain ⟨c1, c2, c3, c4⟩ := hsw
  obtain ⟨d1, d2, d3, d4⟩ := hse
  unfold inRegionN
  refine ⟨fun r c hmem => ?_, fun r c hmem => ?_, fun r c => ?_⟩ <;> omega

/-- `BuiltLike` trees tile exactly. -/
theorem builtLike_exactTiled : ∀ n : QuadTreeNode, BuiltLike n → ExactTiled n := by
  intro n
  induction n with
  | leafN x y w h pv => intro _; rw [ExactTiled]; trivial
  | internalN x y w h nw ne sw se ih1 ih2 ih3 ih4 =>
      intro hB
      rw [BuiltLike] at hB
      obtain ⟨_, _, b1, b2, b3, b4, r1, r2, r3, r4⟩ := hB
      obtain ⟨hsub, hcov, hdis⟩ := floor_split_exact x y w h nw ne sw se r1 r2 r3 r4
      exact ⟨ih1 b1, ih2 b2, ih3 b3, ih4 b4, hsub, hcov, hdis⟩

/-- `BuiltLike` trees are floor-tiled. -/
theorem builtLike_floorTiled : ∀ n : QuadTreeNode, BuiltLike n → FloorTiled n := by
  intro n
  induction n with
  | leafN x y w h pv => intro _; rw [FloorTiled]; trivial
  | internalN x y w h nw ne sw se ih1 ih2 ih3 ih4 =>
      intro hB
      rw [BuiltLike] at hB
      obtain ⟨_, _, b1, b2, b3, b4, r1, r2, r3, r4⟩ := hB
      exact ⟨ih1 b1, ih2 b2, ih3 b3, ih4 b4, r1, r2, r3, r4⟩

theorem flipH_accessors (W : ℤ) (n : QuadTreeNode) :
    nodeX (flipHorizontalRec W n) = W - nodeX n - nodeW n ∧
    nodeY (flipHorizontalRec W n) = nodeY n ∧
    nodeW (flipHorizontalRec W n) = nodeW n ∧
    nodeH (flipHorizontalRec W n) = nodeH n := by
  cases n <;> simp [flipHorizontalRec, nodeX, nodeY, nodeW, nodeH]

theorem flipV_accessors (H : ℤ) (n : QuadTreeNode) :
    nodeX (flipVerticalRec H n) = nodeX n ∧
    nodeY (flipVerticalRec H n) = H - nodeY n - nodeH n ∧
    nodeW (flipVerticalRec H n) = nodeW n ∧
    nodeH (flipVerticalRec H n) = nodeH n := by
  cases n <;> simp [flipVerticalRec, nodeX, nodeY, nodeW, nodeH]

/-- A pixel lies in a horizontally flipped node's region exactly when its
mirror pixel lies in the original region. -/
theorem inRegionN_flipH (W : ℤ) (n : QuadTreeNode) (r c : ℤ) :
    inRegionN (flipHorizontalRec W n) r c ↔ inRegionN n r (W - 1 - c) := by
  obtain ⟨h1, h2, h3, h4⟩ := flipH_accessors W n
  unfold inRegionN
  rw [h1, h2, h3, h4]
  omega

theorem inRegionN_flipV (H : ℤ) (n : QuadTreeNode) (r c : ℤ) :
    inRegionN (flipVerticalRec H n) r c ↔ inRegionN n (H - 1 - r) c := by
  obtain ⟨h1, h2, h3, h4⟩ := flipV_accessors H n
  unfold inRegionN
  rw [h1, h2, h3, h4]
  omega

/-- Horizontal flipping preserves exact tiling (the split moves to the
mirrored position, but the children still partition the parent). -/
theorem exactTiled_flipH (W : ℤ) : ∀ n : QuadTreeNode, ExactTiled n →
    ExactTiled (flipHorizontalRec W n) := by
  intro n
  induction n with
  | leafN x y w h pv => intro _; rw [flipHorizontalRec, ExactTiled]; trivial
  | internalN x y w h nw ne sw se ih1 ih2 ih3 ih4 =>
      intro hE
      rw [ExactTiled] at hE
      obtain ⟨e1, e2, e3, e4, hsub, hcov, hdis⟩ := hE
      rw [flipHorizontalRec, ExactTiled]
      refine ⟨ih2 e2, ih1 e1, ih4 e4, ih3 e3, ?_, ?_, ?_⟩
      · intro r c hmem
        rw [inRegionN_flipH, inRegionN_flipH, inRegionN_flipH, inRegionN_flipH] at hmem
        have := hsub r (W - 1 - c) (by tauto)
        omega
      · intro r c hb
        rw [inRegionN_flipH, inRegionN_flipH, inRegionN_flipH, inRegionN_flipH]
        have := hcov r (W - 1 - c) (by omega)
        tauto
      · intro r c
        have := hdis r (W - 1 - c)
        rw [inRegionN_flipH, inRegionN_flipH, inRegionN_flipH, inRegionN_flipH]
        tauto

/-- Vertical flipping preserves exact tiling. -/
theorem exactTiled_flipV (H : ℤ) : ∀ n : QuadTreeNode, ExactTiled n →
    ExactTiled (flipVerticalRec H n) := by
  intro n
  induction n with
  | leafN x y w h pv => intro _; rw [flipVerticalRec, ExactTiled]; trivial
  | internalN x y w h nw ne sw se ih1 ih2 ih3 ih4 =>
      intro hE
      rw [ExactTiled] at hE
      obtain ⟨e1, e2, e3, e4, hsub, hcov, hdis⟩ := hE
      rw [flipVerticalRec, ExactTiled]
      refine ⟨ih3 e3, ih4 e4, ih1 e1, ih2 e2, ?_, ?_, ?_⟩
      · intro r c hmem
        rw [inRegionN_flipV, inRegionN_flipV, inRegionN_flipV, inRegionN_flipV] at hmem
        have := hsub (H - 1 - r) c (by tauto)
        omega
      · intro r c hb
        rw [inRegionN_flipV, inRegionN_flipV, inRegionN_flipV, inRegionN_flipV]
        have := hcov (H - 1 - r) c (by omega)
        tauto
      · intro r c
        have := hdis (H - 1 - r) c
        rw [inRegionN_flipV, inRegionN_flipV, inRegionN_flipV, inRegionN_flipV]
        tauto

/-- Flipping a node horizontally twice is the identity. -/
theorem flipH_involutive (W : ℤ) : ∀ n : QuadTreeNode,
    flipHorizontalRec W (flipHorizontalRec W n) = n := by
  intro n
  induction n with
  | leafN x y w h pv => simp [flipHorizontalRec]; ring
  | internalN x y w h nw ne sw se ih1 ih2 ih3 ih4 =>
      simp [flipHorizontalRec, ih1, ih2, ih3, ih4]; ring

/-- Flipping a node vertically twice is the identity. -/
theorem flipV_involutive (H : ℤ) : ∀ n : QuadTreeNode,
    flipVerticalRec H (flipVerticalRec H n) = n := by
  intro n
  induction n with
  | leafN x y w h pv => simp [flipVerticalRec]; ring
  | internalN x y w h nw ne sw se ih1 ih2 ih3 ih4 =>
      simp [flipVerticalRec, ih1, ih2, ih3, ih4]; ring

/-- Region membership only depends on a node's region. -/
theorem inRegionN_congr (m n : QuadTreeNode) (h : regionOf m = regionOf n) (r c : ℤ) :
    inRegionN m r c ↔ inRegionN n r c := by
  simp only [regionOf, Prod.ext_iff] at h
  obtain ⟨h1, h2, h3, h4⟩ := h
  unfold inRegionN
  rw [h1, h2, h3, h4]

/-- A successful overlay keeps `node1`'s region (the merged node is always
built over `node1.x, node1.y, node1.width, node1.height`). -/
theorem overlayRec_region (operation : String) (alpha : ℚ) :
    ∀ n1 n2 r, overlayRec operation alpha n1 n2 = some r → regionOf r = regionOf n1 := by
  intro n1 n2
  induction n1, n2 using overlayRec.induct operation alpha with
  | case1 x y w h pv1 x2 y2 w2 h2 pv2 =>
      intro r hr
      rw [overlayRec] at hr
      simp only [Option.some.injEq] at hr
      subst hr; rfl
  | case2 x y w h pv x2 y2 w2 h2 a2 b2 c2 d2 hc =>
      intro r hr
      rw [overlayRec, if_pos hc] at hr
      simp at hr
  | case3 x y w h pv x2 y2 w2 h2 a2 b2 c2 d2 hc ih1 ih2 ih3 ih4 =>
      intro r hr
      rw [overlayRec, if_neg hc] at hr
      simp only [Option.bind_eq_bind, Option.bind_eq_some, Option.some.injEq] at hr
      obtain ⟨ra, hra, rb, hrb, rc, hrc, rd, hrd, hr⟩ := hr
      subst hr; rfl
  | case4 x y w h a1 b1 c1 d1 x2 y2 w2 h2 pv hc =>
      intro r hr
      rw [overlayRec, if_pos hc] at hr
      simp at hr
  | case5 x y w h a1 b1 c1 d1 x2 y2 w2 h2 pv hc ih1 ih2 ih3 ih4 =>
      intro r hr
      rw [overlayRec, if_neg hc] at hr
      simp only [Option.bind_eq_bind, Option.bind_eq_some, Option.some.injEq] at hr
      obtain ⟨ra, hra, rb, hrb, rc, hrc, rd, hrd, hr⟩ := hr
      subst hr; rfl
  | case6 x y w h a1 b1 c1 d1 x2 y2 w2 h2 a2 b2 c2 d2 ih1 ih2 ih3 ih4 =>
      intro r hr
      rw [overlayRec] at hr
      simp only [Option.bind_eq_bind, Option.bind_eq_some, Option.some.injEq] at hr
      obtain ⟨ra, hra, rb, hrb, rc, hrc, rd, hrd, hr⟩ := hr
      subst hr; rfl

theorem floorTiled_leaf (x y w h : ℤ) (pv : List ℤ) : FloorTiled (.leafN x y w h pv) := by
  rw [FloorTiled]; trivial

theorem exactTiled_leaf (x y w h : ℤ) (pv : List ℤ) : ExactTiled (.leafN x y w h pv) := by
  rw [ExactTiled]; trivial

theorem builtLike_leaf (x y w h : ℤ) (pv : List ℤ) : BuiltLike (.leafN x y w h pv) := by
  rw [BuiltLike]; trivial

/-- A successful overlay of a floor-tiled `node1` with anything is again
floor-tiled: the merged tree's geometry comes from `node1` (or from the
floor-split expansion of its leaves). -/
theorem overlayRec_floorTiled (operation : String) (alpha : ℚ) :
    ∀ n1 n2, FloorTiled n1 → ∀ r, overlayRec operation alpha n1 n2 = some r → FloorTiled r := by
  intro n1 n2
  induction n1, n2 using overlayRec.induct operation alpha with
  | case1 x y w h pv1 x2 y2 w2 h2 pv2 =>
      intro _ r hr
      rw [overlayRec] at hr
      simp only [Option.some.injEq] at hr
      subst hr
      exact floorTiled_leaf ..
  | case2 x y w h pv x2 y2 w2 h2 a2 b2 c2 d2 hc =>
      intro _ r hr
      rw [overlayRec, if_pos hc] at hr
      simp at hr
  | case3 x y w h pv x2 y2 w2 h2 a2 b2 c2 d2 hc ih1 ih2 ih3 ih4 =>
      intro _ r hr
      rw [overlayRec, if_neg hc] at hr
      simp only [Option.bind_eq_bind, Option.bind_eq_some, Option.some.injEq] at hr
      obtain ⟨ra, hra, rb, hrb, rc, hrc, rd, hrd, hr⟩ := hr
      subst hr
      rw [FloorTiled]
      refine ⟨ih1 (floorTiled_leaf ..) ra hra, ih2 (floorTiled_leaf ..) rb hrb,
              ih3 (floorTiled_leaf ..) rc hrc, ih4 (floorTiled_leaf ..) rd hrd, ?_, ?_, ?_, ?_⟩
      · rw [overlayRec_region _ _ _ _ _ hra]; rfl
      · rw [overlayRec_region _ _ _ _ _ hrb]; rfl
      · rw [overlayRec_region _ _ _ _ _ hrc]; rfl
      · rw [overlayRec_region _ _ _ _ _ hrd]; rfl
  | case4 x y w h a1 b1 c1 d1 x2 y2 w2 h2 pv hc =>
      intro _ r hr
      rw [overlayRec, if_pos hc] at hr
      simp at hr
  | case5 x y w h a1 b1 c1 d1 x2 y2 w2 h2 pv hc ih1 ih2 ih3 ih4 =>
      intro hF r hr
      rw [FloorTiled] at hF
      obtain ⟨f1, f2, f3, f4, g1, g2, g3, g4⟩ := hF
      rw [overlayRec, if_neg hc] at hr
      simp only [Option.bind_eq_bind, Option.bind_eq_some, Option.some.injEq] at hr
      obtain ⟨ra, hra, rb, hrb, rc, hrc, rd, hrd, hr⟩ := hr
      subst hr
      rw [FloorTiled]
      refine ⟨ih1 f1 ra hra, ih2 f2 rb hrb, ih3 f3 rc hrc, ih4 f4 rd hrd, ?_, ?_, ?_, ?_⟩
      · rw [overlayRec_region _ _ _ _ _ hra]; exact g1
      · rw [overlayRec_region _ _ _ _ _ hrb]; exact g2
      · rw [overlayRec_region _ _ _ _ _ hrc]; exact g3
      · rw [overlayRec_region _ _ _ _ _ hrd]; exact g4
  | case6 x y w h a1 b1 c1 d1 x2 y2 w2 h2 a2 b2 c2 d2 ih1 ih2 ih3 ih4 =>
      intro hF r hr
      rw [FloorTiled] at hF
      obtain ⟨f1, f2, f3, f4, g1, g2, g3, g4⟩ := hF
      rw [overlayRec] at hr
      simp only [Option.bind_eq_bind, Option.bind_eq_some, Option.some.injEq] at hr
      obtain ⟨ra, hra, rb, hrb, rc, hrc, rd, hrd, hr⟩ := hr
      subst hr
      rw [FloorTiled]
      refine ⟨ih1 f1 ra hra, ih2 f2 rb hrb, ih3 f3 rc hrc, ih4 f4 rd hrd, ?_, ?_, ?_, ?_⟩
      · rw [overlayRec_region _ _ _ _ _ hra]; exact g1
      · rw [overlayRec_region _ _ _ _ _ hrb]; exact g2
      · rw [overlayRec_region _ _ _ _ _ hrc]; exact g3
      · rw [overlayRec_region _ _ _ _ _ hrd]; exact g4

/-- The three tiling conditions only depend on the children's regions. -/
theorem tiling_conds_transport (x y w h : ℤ) (p q u v p' q' u' v' : QuadTreeNode)
    (hp : regionOf p' = regionOf p) (hq : regionOf q' = regionOf q)
    (hu : regionOf u' = regionOf u) (hv : regionOf v' = regionOf v)
    (hsub : ∀ r c, inRegionN p r c ∨ inRegionN q r c ∨ inRegionN u r c ∨ inRegionN v r c →
      y ≤ r ∧ r < y + h ∧ x ≤ c ∧ c < x + w)
    (hcov : ∀ r c, y ≤ r ∧ r < y + h ∧ x ≤ c ∧ c < x + w →
      inRegionN p r c ∨ inRegionN q r c ∨ inRegionN u r c ∨ inRegionN v r c)
    (hdis : ∀ r c,
      ¬(inRegionN p r c ∧ inRegionN q r c) ∧ ¬(inRegionN p r c ∧ inRegionN u r c) ∧
      ¬(inRegionN p r c ∧ inRegionN v r c) ∧ ¬(inRegionN q r c ∧ inRegionN u r c) ∧
      ¬(inRegionN q r c ∧ inRegionN v r c) ∧ ¬(inRegionN u r c ∧ inRegionN v r c)) :
    (∀ r c, inRegionN p' r c ∨ inRegionN q' r c ∨ inRegionN u' r c ∨ inRegionN v' r c →
      y ≤ r ∧ r < y + h ∧ x ≤ c ∧ c < x + w) ∧
    (∀ r c, y ≤ r ∧ r < y + h ∧ x ≤ c ∧ c < x + w →
      inRegionN p' r c ∨ inRegionN q' r c ∨ inRegionN u' r c ∨ inRegionN v' r c) ∧
    (∀ r c,
      ¬(inRegionN p' r c ∧ inRegionN q' r c) ∧ ¬(inRegionN p' r c ∧ inRegionN u' r c) ∧
      ¬(inRegionN p' r c ∧ inRegionN v' r c) ∧ ¬(inRegionN q' r c ∧ inRegionN u' r c) ∧
      ¬(inRegionN q' r c ∧ inRegionN v' r c) ∧ ¬(inRegionN u' r c ∧ inRegionN v' r c)) := by
  refine ⟨?_, ?_, ?_⟩ <;>
    simp only [inRegionN_congr p' p hp, inRegionN_congr q' q hq,
               inRegionN_congr u' u hu, inRegionN_congr v' v hv] <;>
    first
      | exact hsub
      | exact hcov
      | exact hdis

/-- A successful overlay of an exactly tiled `node1` with anything is
again exactly tiled. -/
theorem overlayRec_exactTiled (operation : String) (alpha : ℚ) :
    ∀ n1 n2, ExactTiled n1 → ∀ r, overlayRec operation alpha n1 n2 = some r → ExactTiled r := by
  intro n1 n2
  induction n1, n2 using overlayRec.induct operation alpha with
  | case1 x y w h pv1 x2 y2 w2 h2 pv2 =>
      intro _ r hr
      rw [overlayRec] at hr
      simp only [Option.some.injEq] at hr
      subst hr
      exact exactTiled_leaf ..
  | case2 x y w h pv x2 y2 w2 h2 a2 b2 c2 d2 hc =>
      intro _ r hr
      rw [overlayRec, if_pos hc] at hr
      simp at hr
  | case3 x y w h pv x2 y2 w2 h2 a2 b2 c2 d2 hc ih1 ih2 ih3 ih4 =>
      intro _ r hr
      rw [overlayRec, if_neg hc] at hr
      simp only [Option.bind_eq_bind, Option.bind_eq_some, Option.some.injEq] at hr
      obtain ⟨ra, hra, rb, hrb, rc, hrc, rd, hrd, hr⟩ := hr
      subst hr
      have ea := overlayRec_region _ _ _ _ _ hra
      have eb := overlayRec_region _ _ _ _ _ hrb
      have ec := overlayRec_region _ _ _ _ _ hrc
      have ed := overlayRec_region _ _ _ _ _ hrd
      obtain ⟨hsub, hcov, hdis⟩ := floor_split_exact x y w h ra rb rc rd
        (ea.trans (regionOf_leafN ..)) (eb.trans (regionOf_leafN ..))
        (ec.trans (regionOf_leafN ..)) (ed.trans (regionOf_leafN ..))
      rw [ExactTiled]
      exact ⟨ih1 (exactTiled_leaf ..) ra hra, ih2 (exactTiled_leaf ..) rb hrb,
             ih3 (exactTiled_leaf ..) rc hrc, ih4 (exactTiled_leaf ..) rd hrd,
             hsub, hcov, hdis⟩
  | case4 x y w h a1 b1 c1 d1 x2 y2 w2 h2 pv hc =>
      intro _ r hr
      rw [overlayRec, if_pos hc] at hr
      simp at hr
  | case5 x y w h a1 b1 c1 d1 x2 y2 w2 h2 pv hc ih1 ih2 ih3 ih4 =>
      intro hE r hr
      rw [ExactTiled] at hE
      obtain ⟨e1, e2, e3, e4, hsub, hcov, hdis⟩ := hE
      rw [overlayRec, if_neg hc] at hr
      simp only [Option.bind_eq_bind, Option.bind_eq_some, Option.some.injEq] at hr
      obtain ⟨ra, hra, rb, hrb, rc, hrc, rd, hrd, hr⟩ := hr
      subst hr
      obtain ⟨hsub', hcov', hdis'⟩ := tiling_conds_transport x y w h a1 b1 c1 d1 ra rb rc rd
        (overlayRec_region _ _ _ _ _ hra) (overlayRec_region _ _ _ _ _ hrb)
        (overlayRec_region _ _ _ _ _ hrc) (overlayRec_region _ _ _ _ _ hrd)
        hsub hcov hdis
      rw [ExactTiled]
      exact ⟨ih1 e1 ra hra, ih2 e2 rb hrb, ih3 e3 rc hrc, ih4 e4 rd hrd, hsub', hcov', hdis'⟩
  | case6 x y w h a1 b1 c1 d1 x2 y2 w2 h2 a2 b2 c2 d2 ih1 ih2 ih3 ih4 =>
      intro hE r hr
      rw [ExactTiled] at hE
      obtain ⟨e1, e2, e3, e4, hsub, hcov, hdis⟩ := hE
      rw [overlayRec] at hr
      simp only [Option.bind_eq_bind, Option.bind_eq_some, Option.some.injEq] at hr
      obtain ⟨ra, hra, rb, hrb, rc, hrc, rd, hrd, hr⟩ := hr
      subst hr
      obtain ⟨hsub', hcov', hdis'⟩ := tiling_conds_transport x y w h a1 b1 c1 d1 ra rb rc rd
        (overlayRec_region _ _ _ _ _ hra) (overlayRec_region _ _ _ _ _ hrb)
        (overlayRec_region _ _ _ _ _ hrc) (overlayRec_region _ _ _ _ _ hrd)
        hsub hcov hdis
      rw [ExactTiled]
      exact ⟨ih1 e1 ra hra, ih2 e2 rb hrb, ih3 e3 rc hrc, ih4 e4 rd hrd, hsub', hcov', hdis'⟩

theorem builtLike_internal_iff (x y w h : ℤ) (nw ne sw se : QuadTreeNode) :
    BuiltLike (.internalN x y w h nw ne sw se) ↔
      1 < w ∧ 1 < h ∧
      BuiltLike nw ∧ BuiltLike ne ∧ BuiltLike sw ∧ BuiltLike se ∧
      regionOf nw = (x, y, w / 2, h / 2) ∧
      regionOf ne = (x + w / 2, y, w - w / 2, h / 2) ∧
      regionOf sw = (x, y + h / 2, w / 2, h - h / 2) ∧
      regionOf se = (x + w / 2, y + h / 2, w - w / 2, h - h / 2) := by
  rw [BuiltLike]

/-- On two `BuiltLike` trees over the same region the overlay recursion
is total: an internal node forces both dimensions above 1, so the leaf
facing it always expands, and all four children of both sides exist and
are index-aligned. -/
theorem overlayRec_total (operation : String) (alpha : ℚ) :
    ∀ n1 n2, BuiltLike n1 → BuiltLike n2 → regionOf n1 = regionOf n2 →
      (overlayRec operation alpha n1 n2).isSome := by
  intro n1 n2
  induction n1, n2 using overlayRec.induct operation alpha with
  | case1 x y w h pv1 x2 y2 w2 h2 pv2 =>
      intro _ _ _
      rw [overlayRec]
      rfl
  | case2 x y w h pv x2 y2 w2 h2 a2 b2 c2 d2 hc =>
      intro _ hB2 hreg
      rw [builtLike_internal_iff] at hB2
      simp only [regionOf_leafN, regionOf_internalN, Prod.ext_iff] at hreg
      omega
  | case3 x y w h pv x2 y2 w2 h2 a2 b2 c2 d2 hc ih1 ih2 ih3 ih4 =>
      intro _ hB2 hreg
      rw [builtLike_internal_iff] at hB2
      obtain ⟨hw2, hh2, b1, b2, b3, b4, g1, g2, g3, g4⟩ := hB2
      simp only [regionOf_leafN, regionOf_internalN, Prod.ext_iff] at hreg
      obtain ⟨ex, ey, ew, eh⟩ := hreg
      subst ex; subst ey; subst ew; subst eh
      obtain ⟨ra, hra⟩ := Option.isSome_iff_exists.mp
        (ih1 (builtLike_leaf ..) b1 ((regionOf_leafN ..).trans g1.symm))
      obtain ⟨rb, hrb⟩ := Option.isSome_iff_exists.mp
        (ih2 (builtLike_leaf ..) b2 ((regionOf_leafN ..).trans g2.symm))
      obtain ⟨rc, hrc⟩ := Option.isSome_iff_exists.mp
        (ih3 (builtLike_leaf ..) b3 ((regionOf_leafN ..).trans g3.symm))
      obtain ⟨rd, hrd⟩ := Option.isSome_iff_exists.mp
        (ih4 (builtLike_leaf ..) b4 ((regionOf_leafN ..).trans g4.symm))
      rw [overlayRec, if_neg hc]
      simp [hra, hrb, hrc, hrd]
  | case4 x y w h a1 b1 c1 d1 x2 y2 w2 h2 pv hc =>
      intro hB1 _ hreg
      rw [builtLike_internal_iff] at hB1
      simp only [regionOf_leafN, regionOf_internalN, Prod.ext_iff] at hreg
      omega
  | case5 x y w h a1 b1 c1 d1 x2 y2 w2 h2 pv hc ih1 ih2 ih3 ih4 =>
      intro hB1 _ hreg
      rw [builtLike_internal_iff] at hB1
      obtain ⟨hw, hh, b1', b2', b3', b4', g1, g2, g3, g4⟩ := hB1
      simp only [regionOf_leafN, regionOf_internalN, Prod.ext_iff] at hreg
      obtain ⟨ex, ey, ew, eh⟩ := hreg
      subst ex; subst ey; subst ew; subst eh
      obtain ⟨ra, hra⟩ := Option.isSome_iff_exists.mp
        (ih1 b1' (builtLike_leaf ..) (g1.trans (regionOf_leafN ..).symm))
      obtain ⟨rb, hrb⟩ := Option.isSome_iff_exists.mp
        (ih2 b2' (builtLike_leaf ..) (g2.trans (regionOf_leafN ..).symm))
      obtain ⟨rc, hrc⟩ := Option.isSome_iff_exists.mp
        (ih3 b3' (builtLike_leaf ..) (g3.trans (regionOf_leafN ..).symm))
      obtain ⟨rd, hrd⟩ := Option.isSome_iff_exists.mp
        (ih4 b4' (builtLike_leaf ..) (g4.trans (regionOf_leafN ..).symm))
      rw [overlayRec, if_neg hc]
      simp [hra, hrb, hrc, hrd]
  | case6 x y w h a1 b1 c1 d1 x2 y2 w2 h2 a2 b2 c2 d2 ih1 ih2 ih3 ih4 =>
      intro hB1 hB2 hreg
      rw [builtLike_internal_iff] at hB1 hB2
      obtain ⟨hw, hh, b1', b2', b3', b4', g1, g2, g3, g4⟩ := hB1
      obtain ⟨hw2, hh2, c1', c2', c3', c4', k1, k2, k3, k4⟩ := hB2
      simp only [regionOf_internalN, Prod.ext_iff] at hreg
      obtain ⟨ex, ey, ew, eh⟩ := hreg
      subst ex; subst ey; subst ew; subst eh
      obtain ⟨ra, hra⟩ := Option.isSome_iff_exists.mp (ih1 b1' c1' (g1.trans k1.symm))
      obtain ⟨rb, hrb⟩ := Option.isSome_iff_exists.mp (ih2 b2' c2' (g2.trans k2.symm))
      obtain ⟨rc, hrc⟩ := Option.isSome_iff_exists.mp (ih3 b3' c3' (g3.trans k3.symm))
      obtain ⟨rd, hrd⟩ := Option.isSome_iff_exists.mp (ih4 b4' c4' (g4.trans k4.symm))
      rw [overlayRec]
      simp [hra, hrb, hrc, hrd]

theorem inRegionN_leafN (x y w h : ℤ) (pv : List ℤ) (r c : ℤ) :
    inRegionN (.leafN x y w h pv) r c ↔ y ≤ r ∧ r < y + h ∧ x ≤ c ∧ c < x + w := by
  simp [inRegionN, nodeX, nodeY, nodeW, nodeH]

theorem inRegionN_internalN (x y w h : ℤ) (nw ne sw se : QuadTreeNode) (r c : ℤ) :
    inRegionN (.internalN x y w h nw ne sw se) r c ↔
      y ≤ r ∧ r < y + h ∧ x ≤ c ∧ c < x + w := by
  simp [inRegionN, nodeX, nodeY, nodeW, nodeH]

/-- In a `BuiltLike` tree every leaf's region is contained in the region
of the tree's root. -/
theorem leaves_region_sub : ∀ n : QuadTreeNode, BuiltLike n →
    ∀ L ∈ leaves n, ∀ r c, inRegionN L r c → inRegionN n r c := by
  intro n
  induction n with
  | leafN x y w h pv =>
      intro _ L hL r c hrc
      rw [leaves, List.mem_singleton] at hL
      subst hL
      exact hrc
  | internalN x y w h nw ne sw se ih1 ih2 ih3 ih4 =>
      intro hB L hL r c hrc
      rw [builtLike_internal_iff] at hB
      obtain ⟨_, _, b1, b2, b3, b4, g1, g2, g3, g4⟩ := hB
      obtain ⟨hsub, _, _⟩ := floor_split_exact x y w h nw ne sw se g1 g2 g3 g4
      rw [leaves] at hL
      simp only [List.mem_append] at hL
      rw [inRegionN_internalN]
      rcases hL with ((hL | hL) | hL) | hL
      · exact hsub r c (Or.inl (ih1 b1 L hL r c hrc))
      · exact hsub r c (Or.inr (Or.inl (ih2 b2 L hL r c hrc)))
      · exact hsub r c (Or.inr (Or.inr (Or.inl (ih3 b3 L hL r c hrc))))
      · exact hsub r c (Or.inr (Or.inr (Or.inr (ih4 b4 L hL r c hrc))))

/-- Rendering a `BuiltLike` subtree leaves every pixel outside the
subtree's region untouched. -/
theorem renderNode_outside : ∀ n : QuadTreeNode, BuiltLike n →
    ∀ (img : Raster) (r c : ℤ) (ch : Fin 3), ¬ inRegionN n r c →
      renderNode n img r c ch = img r c ch := by
  intro n
  induction n with
  | leafN x y w h pv =>
      intro _ img r c ch hout
      rw [inRegionN_leafN] at hout
      rw [renderNode]
      exact if_neg hout
  | internalN x y w h nw ne sw se ih1 ih2 ih3 ih4 =>
      intro hB img r c ch hout
      rw [builtLike_internal_iff] at hB
      obtain ⟨_, _, b1, b2, b3, b4, g1, g2, g3, g4⟩ := hB
      obtain ⟨hsub, _, _⟩ := floor_split_exact x y w h nw ne sw se g1 g2 g3 g4
      rw [inRegionN_internalN] at hout
      rw [renderNode]
      rw [ih4 b4 _ r c ch (fun hmem => hout (hsub r c (Or.inr (Or.inr (Or.inr hmem)))))]
      rw [ih3 b3 _ r c ch (fun hmem => hout (hsub r c (Or.inr (Or.inr (Or.inl hmem)))))]
      rw [ih2 b2 _ r c ch (fun hmem => hout (hsub r c (Or.inr (Or.inl hmem))))]
      rw [ih1 b1 _ r c ch (fun hmem => hout (hsub r c (Or.inl hmem)))]

/-- Rendering a `BuiltLike` tree writes, at every pixel of a leaf's
region, exactly that leaf's colour (`pixel_value or [0,0,0]`, broadcast
across channels). -/
theorem renderNode_leaf_value : ∀ n : QuadTreeNode, BuiltLike n →
    ∀ L ∈ leaves n, ∀ (img : Raster) (r c : ℤ) (ch : Fin 3), inRegionN L r c →
      renderNode n img r c ch = (pvOr (pixelValueOf L)).getD ch.val 0 := by
  intro n
  induction n with
  | leafN x y w h pv =>
      intro _ L hL img r c ch hrc
      rw [leaves, List.mem_singleton] at hL
      subst hL
      rw [inRegionN_leafN] at hrc
      simp only [renderNode]
      rw [if_pos hrc]
      rfl
  | internalN x y w h nw ne sw se ih1 ih2 ih3 ih4 =>
      intro hB L hL img r c ch hrc
      rw [builtLike_internal_iff] at hB
      obtain ⟨_, _, b1, b2, b3, b4, g1, g2, g3, g4⟩ := hB
      obtain ⟨hsub, hcov, hdis⟩ := floor_split_exact x y w h nw ne sw se g1 g2 g3 g4
      rw [leaves] at hL
      simp only [List.mem_append] at hL
      rw [renderNode]
      rcases hL with ((hL | hL) | hL) | hL
      · have hin := leaves_region_sub nw b1 L hL r c hrc
        have hd := hdis r c
        rw [renderNode_outside se b4 _ r c ch (fun hmem => hd.2.2.1 ⟨hin, hmem⟩)]
        rw [renderNode_outside sw b3 _ r c ch (fun hmem => hd.2.1 ⟨hin, hmem⟩)]
        rw [renderNode_outside ne b2 _ r c ch (fun hmem => hd.1 ⟨hin, hmem⟩)]
        exact ih1 b1 L hL img r c ch hrc
      · have hin := leaves_region_sub ne b2 L hL r c hrc
        have hd := hdis r c
        rw [renderNode_outside se b4 _ r c ch (fun hmem => hd.2.2.2.2.1 ⟨hin, hmem⟩)]
        rw [renderNode_outside sw b3 _ r c ch (fun hmem => hd.2.2.2.1 ⟨hin, hmem⟩)]
        exact ih2 b2 L hL _ r c ch hrc
      · have hin := leaves_region_sub sw b3 L hL r c hrc
        have hd := hdis r c
        rw [renderNode_outside se b4 _ r c ch (fun hmem => hd.2.2.2.2.2 ⟨hin, hmem⟩)]
        exact ih3 b3 L hL _ r c ch hrc
      · exact ih4 b4 L hL _ r c ch hrc

/-- Every leaf the builder produces stores a colour list of length 3. -/
theorem buildTree_leaf_pv_length (threshold : ℤ) (img : Image) :
    ∀ x y w h : ℤ, ∀ L ∈ leaves (buildTree threshold img x y w h),
      (pixelValueOf L).length = 3 := by
  intro x y w h
  induction x, y, w, h using buildTree.induct threshold img with
  | case1 x y w h hc =>
      intro L hL
      rw [buildTree, if_pos hc] at hL
      rw [leaves, List.mem_singleton] at hL
      subst hL
      rfl
  | case2 x y w h hc hh =>
      intro L hL
      rw [buildTree, if_neg hc, if_pos hh] at hL
      rw [leaves, List.mem_singleton] at hL
      subst hL
      rfl
  | case3 x y w h hc hh ih1 ih2 ih3 ih4 =>
      intro L hL
      rw [buildTree, if_neg hc, if_neg hh] at hL
      rw [leaves] at hL
      simp only [List.mem_append] at hL
      rcases hL with ((hL | hL) | hL) | hL
      · exact ih1 L hL
      · exact ih2 L hL
      · exact ih3 L hL
      · exact ih4 L hL

/-- With a non-positive threshold no region of size above 1×1 is
homogeneous (no standard deviation is below a non-positive bound). -/
theorem isHomogeneous_nonpos (threshold : ℤ) (img : Image) (x y w h : ℤ)
    (ht : threshold ≤ 0) (hc : ¬(w ≤ 1 ∨ h ≤ 1)) :
    isHomogeneous threshold img x y w h = false := by
  rw [isHomogeneous, if_neg hc]
  simp only [decide_eq_false_iff_not]
  rintro ⟨h0, _⟩
  omega

theorem buildTwo_eval : buildTree 0 imgTwo 0 0 2 2 =
    .internalN 0 0 2 2 (.leafN 0 0 1 1 [0, 1, 2]) (.leafN 1 0 1 1 [10, 11, 12])
      (.leafN 0 1 1 1 [20, 21, 22]) (.leafN 1 1 1 1 [30, 31, 32]) := by
  simp [buildTree, isHomogeneous, imgTwo]

theorem buildTwo_root : (QuadTree.build imgTwo 0).root =
    .internalN 0 0 2 2 (.leafN 0 0 1 1 [0, 1, 2]) (.leafN 1 0 1 1 [10, 11, 12])
      (.leafN 0 1 1 1 [20, 21, 22]) (.leafN 1 1 1 1 [30, 31, 32]) := buildTwo_eval

theorem buildThree_eval : buildTree 0 imgThreeByTwo 0 0 3 2 =
    .internalN 0 0 3 2 (.leafN 0 0 1 1 [0, 0, 0]) (.leafN 1 0 2 1 [0, 0, 0])
      (.leafN 0 1 1 1 [0, 0, 0]) (.leafN 1 1 2 1 [0, 0, 0]) := by
  simp [buildTree, isHomogeneous, imgThreeByTwo]

theorem buildOneA_eval : buildTree 0 imgOneA 0 0 1 1 = .leafN 0 0 1 1 [10, 10, 10] := by
  simp [buildTree, imgOneA]

theorem buildOneB_eval : buildTree 0 imgOneB 0 0 1 1 = .leafN 0 0 1 1 [20, 20, 20] := by
  simp [buildTree, imgOneB]

theorem buildOneA_full : QuadTree.build imgOneA 0 =
    { threshold := 0, originalShape := (1, 1), root := .leafN 0 0 1 1 [10, 10, 10],
      compressionRatio := 0 } := by
  rw [QuadTree.build]
  simp only [show imgOneA.W = 1 from rfl, show imgOneA.H = 1 from rfl, buildOneA_eval, countNodes]
  norm_num

theorem buildOneB_full : QuadTree.build imgOneB 0 =
    { threshold := 0, originalShape := (1, 1), root := .leafN 0 0 1 1 [20, 20, 20],
      compressionRatio := 0 } := by
  rw [QuadTree.build]
  simp only [show imgOneB.W = 1 from rfl, show imgOneB.H = 1 from rfl, buildOneB_eval, countNodes]
  norm_num

/-- The overlay of the two 1×1 builds with the `add` operation. -/
theorem overlayOne_eval :
    (QuadTree.build imgOneA 0).overlay (QuadTree.build imgOneB 0) "add" (1 / 2) =
      some { threshold := 0, originalShape := (1, 1), root := .leafN 0 0 1 1 [30, 30, 30],
             compressionRatio := 0 } := by
  rw [buildOneA_full, buildOneB_full, QuadTree.overlay]
  simp [overlayRec, applyOverlayOperation, pvOr, truncRat]
  norm_num

theorem mem_zipWith_ex {α β γ : Type} (f : α → β → γ) :
    ∀ (l1 : List α) (l2 : List β), ∀ v ∈ List.zipWith f l1 l2,
      ∃ a ∈ l1, ∃ b ∈ l2, v = f a b := by
  intro l1
  induction l1 with
  | nil => intro l2 v hv; simp [List.zipWith] at hv
  | cons a l1 ih =>
      intro l2 v hv
      cases l2 with
      | nil => simp [List.zipWith] at hv
      | cons b l2 =>
          rw [List.zipWith_cons_cons, List.mem_cons] at hv
          rcases hv with hv | hv
          · exact ⟨a, List.mem_cons_self .., b, List.mem_cons_self .., hv⟩
          · obtain ⟨a', ha', b', hb', hv⟩ := ih l2 v hv
            exact ⟨a', List.mem_cons_of_mem _ ha', b', List.mem_cons_of_mem _ hb', hv⟩

theorem map_zipWith_eq {α β γ δ : Type} (g : γ → δ) (f : α → β → γ) :
    ∀ (l1 : List α) (l2 : List β),
      (List.zipWith f l1 l2).map g = List.zipWith (fun a b => g (f a b)) l1 l2 := by
  intro l1
  induction l1 with
  | nil => intro l2; simp
  | cons a l1 ih =>
      intro l2
      cases l2 with
      | nil => simp
      | cons b l2 => simp [List.zipWith_cons_cons, ih]

theorem zipWith_congr_fun {α β γ : Type} (f g : α → β → γ)
    (h : ∀ a b, f a b = g a b) :
    ∀ (l1 : List α) (l2 : List β), List.zipWith f l1 l2 = List.zipWith g l1 l2 := by
  intro l1
  induction l1 with
  | nil => intro l2; simp
  | cons a l1 ih =>
      intro l2
      cases l2 with
      | nil => simp
      | cons b l2 => simp [List.zipWith_cons_cons, ih, h]

/-- `int(...)` of an integer value is that integer. -/
theorem truncRat_intCast (n : ℤ) : truncRat ((n : ℤ) : ℚ) = n := by
  rw [truncRat]
  split
  · rw [← Int.cast_neg, Int.floor_intCast]; omega
  · rw [Int.floor_intCast]

theorem truncRat_nonneg (q : ℚ) (h : 0 ≤ q) : 0 ≤ truncRat q := by
  rw [truncRat, if_neg (not_lt.mpr h)]
  exact Int.le_floor.mpr (by exact_mod_cast h)

theorem truncRat_le_of_le (q : ℚ) (h : q ≤ 255) : truncRat q ≤ 255 := by
  rw [truncRat]
  split
  · rename_i hq
    have : (0 : ℤ) ≤ Int.floor (-q) := Int.le_floor.mpr (by push_cast; linarith)
    omega
  · calc Int.floor q ≤ Int.floor ((255 : ℚ)) := Int.floor_le_floor h
    _ = 255 := by norm_num

theorem flipHorizontal_flipHorizontal (t : QuadTree) :
    t.flipHorizontal.flipHorizontal = t := by
  cases t with
  | mk threshold shape root ratio =>
      simp [QuadTree.flipHorizontal, flipH_involutive]

theorem flipVertical_flipVertical (t : QuadTree) :
    t.flipVertical.flipVertical = t := by
  cases t with
  | mk threshold shape root ratio =>
      simp [QuadTree.flipVertical, flipV_involutive]

/-- C2: for every QuadTree the core produces (by build, flip_horizontal,
flip_vertical, or overlay) and for every Internal node in it, the four
children's regions exactly tile the parent's region: they are pairwise
disjoint, lie inside the parent's bounds, and their union equals the
parent's region (no gap, no overlap). -/
theorem c2_produced_children_tile_exactly :
    ∀ t : QuadTree, Produced t → ExactTiled t.root := by
  intro t ht
  induction ht with
  | build img threshold =>
      exact builtLike_exactTiled _ (buildTree_builtLike threshold img 0 0 img.W img.H)
  | flipH t ht ih => exact exactTiled_flipH _ _ ih
  | flipV t ht ih => exact exactTiled_flipV _ _ ih
  | overlay A B operation alpha T hA hB hov ihA ihB =>
      rw [QuadTree.overlay, Option.map_eq_some'] at hov
      obtain ⟨r, hr, hT⟩ := hov
      rw [← hT]
      exact overlayRec_exactTiled operation alpha A.root B.root ihA r hr

/-- Witness for C2 at a produced tree: the flipped build of the four-colour
2×2 raster tiles exactly. -/
theorem c2_tiling_witness : ExactTiled (QuadTree.build imgTwo 0).flipHorizontal.root :=
  c2_produced_children_tile_exactly _ (Produced.flipH _ (Produced.build imgTwo 0))

/-- C1 counterexample: the horizontal flip of the tree built over a 3×2
raster (threshold 0) is a produced tree with an internal node whose NW
child has width `2 = width - width/2`, not `width/2 = 1`, so the claimed
floor-split region formula fails on flipped trees of odd width. -/
theorem c1_flipped_tree_breaks_floor_split :
    ¬ FloorTiled ((QuadTree.build imgThreeByTwo 0).flipHorizontal).root := by
  have h : ((QuadTree.build imgThreeByTwo 0).flipHorizontal).root =
      flipHorizontalRec 3 (buildTree 0 imgThreeByTwo 0 0 3 2) := rfl
  rw [h, buildThree_eval]
  decide

/-- C1 (amended): trees produced by `build` satisfy the floor-split
region formula at every internal node, and `overlay` preserves it (its
geometry comes from the first tree, with leaves expanded by the same
floor split); the flips instead mirror the split, breaking the floor
formula when the flipped dimension is odd. -/
theorem c1_floor_split_build_and_overlay :
    (∀ (img : Image) (threshold : ℤ), FloorTiled (QuadTree.build img threshold).root) ∧
    (∀ (A B : QuadTree) (operation : String) (alpha : ℚ) (T : QuadTree),
      FloorTiled A.root → A.overlay B operation alpha = some T → FloorTiled T.root) := by
  constructor
  · intro img threshold
    exact builtLike_floorTiled _ (buildTree_builtLike threshold img 0 0 img.W img.H)
  · intro A B operation alpha T hF hov
    rw [QuadTree.overlay, Option.map_eq_some'] at hov
    obtain ⟨r, hr, hT⟩ := hov
    rw [← hT]
    exact overlayRec_floorTiled operation alpha A.root B.root hF r hr

/-- Witness for the amended C1: the 2×2 build is floor-split, and so is a
concrete successful overlay of two 1×1 builds. -/
theorem c1_floor_split_witness :
    FloorTiled (QuadTree.build imgTwo 0).root ∧
    FloorTiled ({ threshold := 0, originalShape := (1, 1),
                  root := QuadTreeNode.leafN 0 0 1 1 [30, 30, 30],
                  compressionRatio := 0 } : QuadTree).root :=
  ⟨c1_floor_split_build_and_overlay.1 imgTwo 0,
   c1_floor_split_build_and_overlay.2 (QuadTree.build imgOneA 0) (QuadTree.build imgOneB 0)
     "add" (1 / 2) _ (c1_floor_split_build_and_overlay.1 imgOneA 0) overlayOne_eval⟩

/-- C4: flip_horizontal and flip_vertical are involutions on built trees:
applying the same flip twice reproduces the tree exactly (same regions,
same colours, same child ordering, same scalar fields). -/
theorem c4_flip_involutions (img : Image) (threshold : ℤ) :
    (QuadTree.build img threshold).flipHorizontal.flipHorizontal = QuadTree.build img threshold ∧
    (QuadTree.build img threshold).flipVertical.flipVertical = QuadTree.build img threshold :=
  ⟨flipHorizontal_flipHorizontal _, flipVertical_flipVertical _⟩

/-- C7: an overlay result carries `treeA`'s threshold and source shape and
stores the arithmetic mean of the two input trees' compression ratios
(not a ratio recomputed from the merged tree). -/
theorem c7_overlay_summary_fields (A B : QuadTree) (operation : String) (alpha : ℚ)
    (T : QuadTree) (h : A.overlay B operation alpha = some T) :
    T.threshold = A.threshold ∧ T.originalShape = A.originalShape ∧
    T.compressionRatio = (A.compressionRatio + B.compressionRatio) / 2 := by
  rw [QuadTree.overlay, Option.map_eq_some'] at h
  obtain ⟨r, hr, hT⟩ := h
  rw [← hT]
  exact ⟨rfl, rfl, rfl⟩

/-- Witness for C7 on a concrete successful overlay of two 1×1 builds. -/
theorem c7_overlay_fields_witness :
    ({ threshold := 0, originalShape := (1, 1),
       root := QuadTreeNode.leafN 0 0 1 1 [30, 30, 30],
       compressionRatio := 0 } : QuadTree).threshold = (QuadTree.build imgOneA 0).threshold ∧
    ({ threshold := 0, originalShape := (1, 1),
       root := QuadTreeNode.leafN 0 0 1 1 [30, 30, 30],
       compressionRatio := 0 } : QuadTree).originalShape = (QuadTree.build imgOneA 0).originalShape ∧
    ({ threshold := 0, originalShape := (1, 1),
       root := QuadTreeNode.leafN 0 0 1 1 [30, 30, 30],
       compressionRatio := 0 } : QuadTree).compressionRatio =
      ((QuadTree.build imgOneA 0).compressionRatio + (QuadTree.build imgOneB 0).compressionRatio) / 2 :=
  c7_overlay_summary_fields (QuadTree.build imgOneA 0) (QuadTree.build imgOneB 0)
    "add" (1 / 2) _ overlayOne_eval

/-- C10: overlaying the builds of two rasters of identical width and
height always succeeds: the recursion never pairs a minimal leaf with an
internal node, so the expansion never returns an unexpanded leaf into the
positional child indexing. -/
theorem c10_overlay_totality (img1 img2 : Image) (t1 t2 : ℤ) (operation : String)
    (alpha : ℚ) (hW : img1.W = img2.W) (hH : img1.H = img2.H) :
    ((QuadTree.build img1 t1).overlay (QuadTree.build img2 t2) operation alpha).isSome := by
  have hreg : regionOf (QuadTree.build img1 t1).root = regionOf (QuadTree.build img2 t2).root := by
    show regionOf (buildTree t1 img1 0 0 img1.W img1.H) =
      regionOf (buildTree t2 img2 0 0 img2.W img2.H)
    rw [buildTree_region, buildTree_region, hW, hH]
  have h := overlayRec_total operation alpha (QuadTree.build img1 t1).root
    (QuadTree.build img2 t2).root
    (buildTree_builtLike t1 img1 0 0 img1.W img1.H)
    (buildTree_builtLike t2 img2 0 0 img2.W img2.H) hreg
  obtain ⟨r, hr⟩ := Option.isSome_iff_exists.mp h
  rw [QuadTree.overlay, hr]
  rfl

/-- Witness for C10: the builds of the 2×2 four-colour raster and the
2×2 constant raster (one internal root, one leaf root) overlay
successfully. -/
theorem c10_overlay_totality_witness :
    ((QuadTree.build imgTwo 0).overlay (QuadTree.build imgTwoConst 10) "blend" (1 / 2)).isSome :=
  c10_overlay_totality imgTwo imgTwoConst 0 10 "blend" (1 / 2) rfl rfl

/-- C6: the `/overlay` endpoint rejects every operation tag outside
`{blend, add, multiply, screen}` with a 400 error before any tree is
built or any colour is combined, so no request with an unrecognized tag
ever produces a blend-combined result (the helper's fallback branch is
unreachable from the endpoint). -/
theorem c6_unknown_tag_rejected (img1 img2 : Image) (operation : String) (alpha : ℚ)
    (threshold : ℤ) (h : operation ∉ validOperations) :
    overlayEndpoint img1 img2 operation alpha threshold =
      .error "Operation must be one of: blend, add, multiply, screen" := by
  rw [overlayEndpoint, if_neg h]

/-- Witness for C6 at the concrete unrecognized tag `"invert"`. -/
theorem c6_unknown_tag_witness :
    overlayEndpoint imgOneA imgOneB "invert" (1 / 2) 10 =
      .error "Operation must be one of: blend, add, multiply, screen" :=
  c6_unknown_tag_rejected imgOneA imgOneB "invert" (1 / 2) 10 (by decide)

/-- C9: when build reaches a region with `width ≤ 1` or `height ≤ 1` the
forced leaf's colour is read solely from the pixel at the region's
top-left corner `(x, y)` (`image[y, x]`), and rendering that leaf paints
every pixel of the strip with that corner colour. -/
theorem c9_strip_leaf_corner_color (threshold : ℤ) (img : Image) (x y w h : ℤ)
    (hmin : w ≤ 1 ∨ h ≤ 1) :
    buildTree threshold img x y w h =
      .leafN x y w h [img.px y x 0, img.px y x 1, img.px y x 2] ∧
    (∀ (img0 : Raster) (r c : ℤ) (ch : Fin 3), y ≤ r ∧ r < y + h ∧ x ≤ c ∧ c < x + w →
      renderNode (buildTree threshold img x y w h) img0 r c ch = img.px y x ch) := by
  have hb : buildTree threshold img x y w h =
      .leafN x y w h [img.px y x 0, img.px y x 1, img.px y x 2] := by
    rw [buildTree, if_pos hmin]
  refine ⟨hb, ?_⟩
  intro img0 r c ch hrc
  rw [hb]
  simp only [renderNode]
  rw [if_pos hrc]
  show (pvOr [img.px y x 0, img.px y x 1, img.px y x 2]).getD ch.val 0 = img.px y x ch
  rw [pvOr, if_neg (by simp)]
  fin_cases ch <;> rfl

/-- Witness for C9 on a 3×1 strip with three distinct pixels: the forced
leaf stores the corner pixel and rendering paints column 2 with the
colour of column 0. -/
theorem c9_strip_witness :
    buildTree 0 imgStrip 0 0 3 1 =
      .leafN 0 0 3 1 [imgStrip.px 0 0 0, imgStrip.px 0 0 1, imgStrip.px 0 0 2] ∧
    renderNode (buildTree 0 imgStrip 0 0 3 1) zeroRaster 0 2 0 = imgStrip.px 0 0 0 :=
  ⟨(c9_strip_leaf_corner_color 0 imgStrip 0 0 3 1 (by omega)).1,
   (c9_strip_leaf_corner_color 0 imgStrip 0 0 3 1 (by omega)).2 zeroRaster 0 2 0 (by omega)⟩

/-- C8 counterexample: the root of the build over the four-colour 2×2
raster is an internal node, yet its `to_dict` dictionary does carry a
`pixel_value` key (with value null), because the source writes the key
unconditionally. -/
theorem c8_internal_dict_has_pixel_value :
    isLeafB (QuadTree.build imgTwo 0).root = false ∧
    hasKey "pixel_value" (toDict (QuadTree.build imgTwo 0).root) = true := by
  constructor
  · rw [buildTwo_root]
    rfl
  · rw [buildTwo_root]
    decide

/-- C8 (amended): in the `to_dict` snapshot a leaf's dictionary never
contains a `children` key and an internal node's always does, but every
node's dictionary — internal nodes included — always contains a
`pixel_value` key (serialized as null on internal nodes); only the
`children` key is determined by the node's variant. -/
theorem c8_dict_keys_by_variant (n : QuadTreeNode) :
    hasKey "pixel_value" (toDict n) = true ∧
    hasKey "children" (toDict n) = !(isLeafB n) := by
  cases n <;> simp [toDict, hasKey, isLeafB]

/-- C3: rendering a built tree writes, at every pixel inside a leaf's
region, exactly that leaf's stored colour (per channel); internal nodes
write nothing themselves, and the leaf regions of a built tree are
disjoint, so no later write clobbers the value. -/
theorem c3_render_leaf_region_color (img : Image) (threshold : ℤ) (L : QuadTreeNode)
    (r c : ℤ) (ch : Fin 3) (hL : L ∈ leaves (QuadTree.build img threshold).root)
    (hrc : inRegionN L r c) :
    (QuadTree.build img threshold).toImage r c ch = (pixelValueOf L).getD ch.val 0 := by
  have hB := buildTree_builtLike threshold img 0 0 img.W img.H
  have hL' : L ∈ leaves (buildTree threshold img 0 0 img.W img.H) := hL
  have hlen := buildTree_leaf_pv_length threshold img 0 0 img.W img.H L hL'
  have h := renderNode_leaf_value _ hB L hL' zeroRaster r c ch hrc
  show renderNode (buildTree threshold img 0 0 img.W img.H) zeroRaster r c ch = _
  rw [h]
  cases hpv : pixelValueOf L with
  | nil => rw [hpv] at hlen; simp at hlen
  | cons a tl => simp [hpv, pvOr]

/-- Witness for C3: in the rendered build of the 2×2 four-colour raster
the pixel at row 0, column 1 carries channel 0 of the NE leaf. -/
theorem c3_render_witness : (QuadTree.build imgTwo 0).toImage 0 1 0 = 10 :=
  (c3_render_leaf_region_color imgTwo 0 (.leafN 1 0 1 1 [10, 11, 12]) 0 1 0
    (by rw [buildTwo_root]; decide) (by decide)).trans (by decide)

theorem blend_value_range (a b : ℤ) (alpha : ℚ)
    (ha : 0 ≤ a ∧ a ≤ 255) (hb : 0 ≤ b ∧ b ≤ 255) (h0 : 0 ≤ alpha) (h1 : alpha ≤ 1) :
    0 ≤ truncRat ((a : ℚ) * (1 - alpha) + (b : ℚ) * alpha) ∧
    truncRat ((a : ℚ) * (1 - alpha) + (b : ℚ) * alpha) ≤ 255 := by
  have haq : (0 : ℚ) ≤ (a : ℚ) := by exact_mod_cast ha.1
  have haq2 : (a : ℚ) ≤ 255 := by exact_mod_cast ha.2
  have hbq : (0 : ℚ) ≤ (b : ℚ) := by exact_mod_cast hb.1
  have hbq2 : (b : ℚ) ≤ 255 := by exact_mod_cast hb.2
  have hq0 : 0 ≤ (a : ℚ) * (1 - alpha) + (b : ℚ) * alpha := by
    have := mul_nonneg haq (by linarith : (0 : ℚ) ≤ 1 - alpha)
    have := mul_nonneg hbq h0
    linarith
  have hq1 : (a : ℚ) * (1 - alpha) + (b : ℚ) * alpha ≤ 255 := by
    have h255a := mul_nonneg (by linarith : (0 : ℚ) ≤ 255 - (a : ℚ))
      (by linarith : (0 : ℚ) ≤ 1 - alpha)
    have h255b := mul_nonneg (by linarith : (0 : ℚ) ≤ 255 - (b : ℚ)) h0
    nlinarith
  exact ⟨truncRat_nonneg _ hq0, truncRat_le_of_le _ hq1⟩

theorem multiply_value_range (a b : ℤ)
    (ha : 0 ≤ a ∧ a ≤ 255) (hb : 0 ≤ b ∧ b ≤ 255) :
    0 ≤ truncRat ((a : ℚ) * (b : ℚ) / 255) ∧ truncRat ((a : ℚ) * (b : ℚ) / 255) ≤ 255 := by
  have haq : (0 : ℚ) ≤ (a : ℚ) := by exact_mod_cast ha.1
  have haq2 : (a : ℚ) ≤ 255 := by exact_mod_cast ha.2
  have hbq : (0 : ℚ) ≤ (b : ℚ) := by exact_mod_cast hb.1
  have hbq2 : (b : ℚ) ≤ 255 := by exact_mod_cast hb.2
  have hq0 : 0 ≤ (a : ℚ) * (b : ℚ) / 255 := by positivity
  have hq1 : (a : ℚ) * (b : ℚ) / 255 ≤ 255 := by
    rw [div_le_iff₀ (by norm_num : (0 : ℚ) < 255)]
    nlinarith
  exact ⟨truncRat_nonneg _ hq0, truncRat_le_of_le _ hq1⟩

theorem screen_value_range (a b : ℤ)
    (ha : 0 ≤ a ∧ a ≤ 255) (hb : 0 ≤ b ∧ b ≤ 255) :
    0 ≤ truncRat (255 - (255 - (a : ℚ)) * (255 - (b : ℚ)) / 255) ∧
    truncRat (255 - (255 - (a : ℚ)) * (255 - (b : ℚ)) / 255) ≤ 255 := by
  have haq : (0 : ℚ) ≤ (a : ℚ) := by exact_mod_cast ha.1
  have haq2 : (a : ℚ) ≤ 255 := by exact_mod_cast ha.2
  have hbq : (0 : ℚ) ≤ (b : ℚ) := by exact_mod_cast hb.1
  have hbq2 : (b : ℚ) ≤ 255 := by exact_mod_cast hb.2
  have hprod0 : (0 : ℚ) ≤ (255 - (a : ℚ)) * (255 - (b : ℚ)) := by nlinarith
  have hprod1 : (255 - (a : ℚ)) * (255 - (b : ℚ)) ≤ 255 * 255 := by nlinarith
  have hq0 : 0 ≤ 255 - (255 - (a : ℚ)) * (255 - (b : ℚ)) / 255 := by
    have : (255 - (a : ℚ)) * (255 - (b : ℚ)) / 255 ≤ 255 := by
      rw [div_le_iff₀ (by norm_num : (0 : ℚ) < 255)]
      linarith
    linarith
  have hq1 : 255 - (255 - (a : ℚ)) * (255 - (b : ℚ)) / 255 ≤ 255 := by
    have : 0 ≤ (255 - (a : ℚ)) * (255 - (b : ℚ)) / 255 := by positivity
    linarith
  exact ⟨truncRat_nonneg _ hq0, truncRat_le_of_le _ hq1⟩

theorem applyOverlay_blend_eq (c1 c2 : List ℤ) (alpha : ℚ) :
    applyOverlayOperation c1 c2 "blend" alpha =
      List.zipWith (fun (a b : ℤ) => truncRat ((a : ℚ) * (1 - alpha) + (b : ℚ) * alpha)) c1 c2 := by
  rw [applyOverlayOperation, if_pos rfl]
  exact map_zipWith_eq ..

theorem applyOverlay_add_eq (c1 c2 : List ℤ) (alpha : ℚ) :
    applyOverlayOperation c1 c2 "add" alpha =
      List.zipWith (fun a b => min (a + b) 255) c1 c2 := by
  rw [applyOverlayOperation, if_neg (by decide), if_pos rfl]
  rw [map_zipWith_eq]
  exact zipWith_congr_fun _ _ (fun a b => truncRat_intCast _) c1 c2

theorem applyOverlay_multiply_eq (c1 c2 : List ℤ) (alpha : ℚ) :
    applyOverlayOperation c1 c2 "multiply" alpha =
      List.zipWith (fun (a b : ℤ) => truncRat ((a : ℚ) * (b : ℚ) / 255)) c1 c2 := by
  rw [applyOverlayOperation, if_neg (by decide), if_neg (by decide), if_pos rfl]
  exact map_zipWith_eq ..

theorem applyOverlay_screen_eq (c1 c2 : List ℤ) (alpha : ℚ) :
    applyOverlayOperation c1 c2 "screen" alpha =
      List.zipWith (fun (a b : ℤ) => truncRat (255 - (255 - (a : ℚ)) * (255 - (b : ℚ)) / 255)) c1 c2 := by
  rw [applyOverlayOperation, if_neg (by decide), if_neg (by decide), if_neg (by decide), if_pos rfl]
  exact map_zipWith_eq ..

/-- C5: for per-channel integer inputs in `[0, 255]` and `alpha ∈ [0, 1]`,
`_apply_overlay_operation` computes, per channel, exactly the claimed
formula of each operation — blend `c1·(1−α)+c2·α`, add `min(c1+c2,255)`,
multiply `(c1·c2)/255`, screen `255−((255−c1)·(255−c2))/255` — truncated
toward zero, and every output channel lies in `[0, 255]` (in particular
`add` never exceeds 255 or drops below 0). -/
theorem c5_combine_formulas_and_range (c1 c2 : List ℤ) (alpha : ℚ)
    (h1 : ∀ v ∈ c1, 0 ≤ v ∧ v ≤ 255) (h2 : ∀ v ∈ c2, 0 ≤ v ∧ v ≤ 255)
    (ha0 : 0 ≤ alpha) (ha1 : alpha ≤ 1) :
    (applyOverlayOperation c1 c2 "blend" alpha =
        List.zipWith (fun (a b : ℤ) => truncRat ((a : ℚ) * (1 - alpha) + (b : ℚ) * alpha)) c1 c2 ∧
      ∀ v ∈ applyOverlayOperation c1 c2 "blend" alpha, 0 ≤ v ∧ v ≤ 255) ∧
    (applyOverlayOperation c1 c2 "add" alpha =
        List.zipWith (fun a b => min (a + b) 255) c1 c2 ∧
      ∀ v ∈ applyOverlayOperation c1 c2 "add" alpha, 0 ≤ v ∧ v ≤ 255) ∧
    (applyOverlayOperation c1 c2 "multiply" alpha =
        List.zipWith (fun (a b : ℤ) => truncRat ((a : ℚ) * (b : ℚ) / 255)) c1 c2 ∧
      ∀ v ∈ applyOverlayOperation c1 c2 "multiply" alpha, 0 ≤ v ∧ v ≤ 255) ∧
    (applyOverlayOperation c1 c2 "screen" alpha =
        List.zipWith
          (fun (a b : ℤ) => truncRat (255 - (255 - (a : ℚ)) * (255 - (b : ℚ)) / 255)) c1 c2 ∧
      ∀ v ∈ applyOverlayOperation c1 c2 "screen" alpha, 0 ≤ v ∧ v ≤ 255) := by
  refine ⟨⟨applyOverlay_blend_eq c1 c2 alpha, ?_⟩, ⟨applyOverlay_add_eq c1 c2 alpha, ?_⟩,
    ⟨applyOverlay_multiply_eq c1 c2 alpha, ?_⟩, ⟨applyOverlay_screen_eq c1 c2 alpha, ?_⟩⟩
  · intro v hv
    rw [applyOverlay_blend_eq] at hv
    obtain ⟨a, haa, b, hbb, hveq⟩ := mem_zipWith_ex _ c1 c2 v hv
    subst hveq
    exact blend_value_range a b alpha (h1 a haa) (h2 b hbb) ha0 ha1
  · intro v hv
    rw [applyOverlay_add_eq] at hv
    obtain ⟨a, haa, b, hbb, hveq⟩ := mem_zipWith_ex _ c1 c2 v hv
    subst hveq
    have := h1 a haa
    have := h2 b hbb
    omega
  · intro v hv
    rw [applyOverlay_multiply_eq] at hv
    obtain ⟨a, haa, b, hbb, hveq⟩ := mem_zipWith_ex _ c1 c2 v hv
    subst hveq
    exact multiply_value_range a b (h1 a haa) (h2 b hbb)
  · intro v hv
    rw [applyOverlay_screen_eq] at hv
    obtain ⟨a, haa, b, hbb, hveq⟩ := mem_zipWith_ex _ c1 c2 v hv
    subst hveq
    exact screen_value_range a b (h1 a haa) (h2 b hbb)

/-- Witness for C5: on saturating concrete channels the `add` operation
clamps at 255. -/
theorem c5_combine_witness : applyOverlayOperation [100, 200] [200, 100] "add" 0 = [255, 255] :=
  ((c5_combine_formulas_and_range [100, 200] [200, 100] 0 (by decide) (by decide)
    (by norm_num) (by norm_num)).2.1.1).trans (by decide)
